import Mathlib

/-!
Verification of the dataset-preparation pipeline
(mask binarizer, pair reconciler, aspect-preserving resampler).

The Python sources are embedded shallowly:
* pixel buffers are `List (List ℕ)` of uint8 samples,
* filesystem directory listings are `List String` of file names,
* `pathlib` stem/suffix extraction and the string predicates the scripts
  use are re-implemented over `List Char`,
* the rational formulas of the resampler use `ℚ`, with Python's
  `round` (half-to-even) made explicit.
-/

namespace SSHelper

/-! ### String primitives (pathlib semantics) -/

/-- Index of the last `'.'` in a character list, if any. -/
def lastDotPos : List Char → Option Nat
  | [] => none
  | c :: cs =>
    match lastDotPos cs with
    | some i => some (i + 1)
    | none => if c = '.' then some 0 else none

/-- `pathlib.Path.suffix` on a file name: the final `.ext` part, empty when the
only dot is leading or trailing. -/
def pySuffixList (l : List Char) : List Char :=
  match lastDotPos l with
  | none => []
  | some i => if 0 < i ∧ i + 1 < l.length then l.drop i else []

/-- `pathlib.Path.stem`: the name with `pySuffixList` removed. -/
def pyStemList (l : List Char) : List Char :=
  match lastDotPos l with
  | none => l
  | some i => if 0 < i ∧ i + 1 < l.length then l.take i else l

def pySuffix (s : String) : String := String.mk (pySuffixList s.toList)

def pyStem (s : String) : String := String.mk (pyStemList s.toList)

/-- `str.lower()` (ASCII, which is all the scripts compare). -/
def strLower (s : String) : String := String.mk (s.toList.map Char.toLower)

/-- `str.startswith`. -/
def strStartsWith (s pre : String) : Bool := pre.toList.isPrefixOf s.toList

/-- `str.endswith`. -/
def strEndsWith (s suf : String) : Bool := suf.toList.isSuffixOf s.toList

/-- Substring containment over character lists (`needle in haystack`). -/
def listContainsSub (needle : List Char) : List Char → Bool
  | [] => needle.isEmpty
  | c :: cs => needle.isPrefixOf (c :: cs) || listContainsSub needle cs

/-- Python's `sub in s`. -/
def strContainsSub (s sub : String) : Bool := listContainsSub sub.toList s.toList

/-! ### Binarizer (`fix_masks_to_binary.py`, `binarize_array`)

A grayscale buffer is a `List (List ℕ)` of uint8 samples.  `np.unique`
becomes deduplication of the flattened sample list; the three-tier branch
structure is kept exactly as in the source. -/

/-- The distinct sample values of a buffer (`np.unique(arr)` as a set). -/
def uniqueVals (arr : List (List ℕ)) : List ℕ := arr.flatten.dedup

/-- `binarize_array`: tier 1 returns the buffer unchanged when the distinct
values are already within `{0, 255}`; tier 2 scales `{0,1}` data by 255 (uint8
arithmetic, hence the `% 256`); tier 3 collapses every nonzero sample to 255. -/
def binarize_array (arr : List (List ℕ)) : List (List ℕ) :=
  if (uniqueVals arr).all (fun v => v == 0 || v == 255) then
    arr
  else if (uniqueVals arr).all (fun v => v == 0 || v == 1) then
    arr.map (List.map (fun v => v * 255 % 256))
  else
    arr.map (List.map (fun v => if 0 < v then 255 else 0))

lemma all_uniqueVals_iff (arr : List (List ℕ)) (p : ℕ → Bool) :
    ((uniqueVals arr).all p) = true ↔ ∀ v ∈ arr.flatten, p v = true := by
  simp [uniqueVals, List.all_eq_true, List.mem_dedup]

lemma all_uniqueVals_false (arr : List (List ℕ)) (p : ℕ → Bool)
    (h : ∃ v ∈ arr.flatten, p v = false) : ((uniqueVals arr).all p) = false := by
  rcases h with ⟨v, hv, hpv⟩
  rw [Bool.eq_false_iff]
  intro hall
  rw [all_uniqueVals_iff] at hall
  have hv' := hall v hv
  rw [hpv] at hv'
  exact Bool.false_ne_true hv'

/-- Tier 1: a buffer whose samples are all 0 or 255 is returned unchanged. -/
lemma binarize_of_subset0255 (arr : List (List ℕ))
    (h : ∀ v ∈ arr.flatten, v = 0 ∨ v = 255) : binarize_array arr = arr := by
  have hb : ((uniqueVals arr).all (fun v => v == 0 || v == 255)) = true := by
    rw [all_uniqueVals_iff]
    intro v hv
    rcases h v hv with h' | h' <;> simp [h']
  simp [binarize_array, hb]

/-- Tier 2: not already `{0,255}`, but all samples 0 or 1, gets scaled by 255. -/
lemma binarize_of_01 (arr : List (List ℕ))
    (hne : ∃ v ∈ arr.flatten, ¬(v = 0 ∨ v = 255))
    (h01 : ∀ v ∈ arr.flatten, v = 0 ∨ v = 1) :
    binarize_array arr = arr.map (List.map (fun v => v * 255 % 256)) := by
  have h255 : ((uniqueVals arr).all (fun v => v == 0 || v == 255)) = false := by
    apply all_uniqueVals_false
    rcases hne with ⟨v, hv, hvn⟩
    push_neg at hvn
    exact ⟨v, hv, by simp [hvn.1, hvn.2]⟩
  have h01b : ((uniqueVals arr).all (fun v => v == 0 || v == 1)) = true := by
    rw [all_uniqueVals_iff]
    intro v hv
    rcases h01 v hv with h' | h' <;> simp [h']
  simp [binarize_array, h255, h01b]

/-- Tier 3: values outside both `{0,255}` and `{0,1}` trigger nonzero-collapse. -/
lemma binarize_of_multilevel (arr : List (List ℕ))
    (hne : ∃ v ∈ arr.flatten, ¬(v = 0 ∨ v = 255))
    (hne01 : ∃ v ∈ arr.flatten, ¬(v = 0 ∨ v = 1)) :
    binarize_array arr = arr.map (List.map (fun v => if 0 < v then 255 else 0)) := by
  have h255 : ((uniqueVals arr).all (fun v => v == 0 || v == 255)) = false := by
    apply all_uniqueVals_false
    rcases hne with ⟨v, hv, hvn⟩
    push_neg at hvn
    exact ⟨v, hv, by simp [hvn.1, hvn.2]⟩
  have h01 : ((uniqueVals arr).all (fun v => v == 0 || v == 1)) = false := by
    apply all_uniqueVals_false
    rcases hne01 with ⟨v, hv, hvn⟩
    push_neg at hvn
    exact ⟨v, hv, by simp [hvn.1, hvn.2]⟩
  simp [binarize_array, h255, h01]

lemma forall₂_map_self {α β : Type} (f : α → β) (R : α → β → Prop)
    (h : ∀ a, R a (f a)) : ∀ l : List α, List.Forall₂ R l (l.map f)
  | [] => List.Forall₂.nil
  | a :: l => List.Forall₂.cons (h a) (forall₂_map_self f R h l)

/-- Every sample of `binarize_array`'s output is 0 or 255. -/
lemma binarize_output_binary (arr : List (List ℕ)) :
    ∀ v ∈ (binarize_array arr).flatten, v = 0 ∨ v = 255 := by
  intro v hv
  unfold binarize_array at hv
  split at hv
  · rename_i h
    rw [all_uniqueVals_iff] at h
    have hb := h v hv
    simp only [Bool.or_eq_true, beq_iff_eq] at hb
    exact hb
  · split at hv
    · rename_i h01
      rw [all_uniqueVals_iff] at h01
      simp only [List.mem_flatten, List.mem_map] at hv
      rcases hv with ⟨row, ⟨row₀, hrow₀, hmap⟩, hvrow⟩
      subst hmap
      rcases List.mem_map.mp hvrow with ⟨a, ha, rfl⟩
      have hb := h01 a (List.mem_flatten.mpr ⟨row₀, hrow₀, ha⟩)
      simp only [Bool.or_eq_true, beq_iff_eq] at hb
      rcases hb with rfl | rfl
      · left; rfl
      · right; rfl
    · simp only [List.mem_flatten, List.mem_map] at hv
      rcases hv with ⟨row, ⟨row₀, hrow₀, hmap⟩, hvrow⟩
      subst hmap
      rcases List.mem_map.mp hvrow with ⟨a, ha, rfl⟩
      by_cases hpos : 0 < a <;> simp [hpos]

/-- C1: for every 2D uint8 buffer, `binarize_array` keeps the shape and follows
the three-tier decision procedure on the set of distinct sample values: a
buffer within `{0,255}` is returned unchanged; otherwise a buffer within
`{0,1}` is scaled by 255; otherwise every sample is collapsed so that the
output sample is 255 exactly when the input sample is positive (and is 0 or
255 in any case). -/
theorem binarize_array_three_tier (arr : List (List ℕ)) :
    ((binarize_array arr).map List.length = arr.map List.length) ∧
    ((∀ v ∈ arr.flatten, v = 0 ∨ v = 255) → binarize_array arr = arr) ∧
    ((∃ v ∈ arr.flatten, ¬(v = 0 ∨ v = 255)) → (∀ v ∈ arr.flatten, v = 0 ∨ v = 1) →
      binarize_array arr = arr.map (List.map (fun v => v * 255 % 256))) ∧
    ((∃ v ∈ arr.flatten, ¬(v = 0 ∨ v = 255)) → (∃ v ∈ arr.flatten, ¬(v = 0 ∨ v = 1)) →
      List.Forall₂ (List.Forall₂ (fun a b => (b = 0 ∨ b = 255) ∧ (b = 255 ↔ 0 < a)))
        arr (binarize_array arr)) := by
  refine ⟨?_, binarize_of_subset0255 arr, binarize_of_01 arr, ?_⟩
  · unfold binarize_array
    split
    · rfl
    · split <;> simp [List.map_map, Function.comp]
  · intro h1 h2
    rw [binarize_of_multilevel arr h1 h2]
    refine forall₂_map_self _ _ (fun row => forall₂_map_self _ _ (fun a => ?_) row) arr
    by_cases h : 0 < a <;> simp [h]

/-- Witness for C1 at the spec's `{0,128,255}` scenario: the third tier fires
and maps 128 to 255. -/
theorem binarize_array_three_tier_witness :
    List.Forall₂ (List.Forall₂ (fun a b => (b = 0 ∨ b = 255) ∧ (b = 255 ↔ 0 < a)))
      [[0, 128, 255]] (binarize_array [[0, 128, 255]]) :=
  (binarize_array_three_tier [[0, 128, 255]]).2.2.2
    ⟨128, by decide, by decide⟩ ⟨128, by decide, by decide⟩

/-- C8: `binarize_array` is idempotent, since its output alphabet is contained
in `{0,255}` and such buffers take the identity tier. -/
theorem binarize_array_idem (arr : List (List ℕ)) :
    binarize_array (binarize_array arr) = binarize_array arr :=
  binarize_of_subset0255 _ (binarize_output_binary arr)

/-! ### Prune pass (`prune_unpaired_pairs.py`)

A directory is its listing, a `List String` of file names.  The scripts
compare `pathlib` stems, so all pairing logic goes through `pyStem`. -/

/-- The reserved mask-suffix token. -/
def MASK_SUFFIX : String := "_mask"

/-- The full extension allow-list, as declared in `fix_masks_to_binary.py`,
`prune_unpaired_pairs.py` and `resize_dataset_256.py`. -/
def IMG_EXTS : List String := [".jpg", ".jpeg", ".png", ".bmp", ".tif", ".tiff", ".webp"]

/-- `iter_media_files`: files whose lowercased extension is in the allow-list
and whose name does not start with a dot. -/
def iter_media_files (files : List String) : List String :=
  files.filter (fun p => IMG_EXTS.contains (strLower (pySuffix p)) && !(strStartsWith p "."))

/-- The root basename of a mask stem: defined exactly when the stem ends with
`_mask`, in which case the suffix is stripped (`stem[:-len(MASK_SUFFIX)]`). -/
def maskRoot (stem : String) : Option String :=
  if strEndsWith stem MASK_SUFFIX then
    some (String.mk (stem.toList.take (stem.toList.length - MASK_SUFFIX.toList.length)))
  else none

/-- `compute_bases`, image side: the stems of the image files. -/
def image_bases (images : List String) : List String := (images.map pyStem).dedup

/-- `compute_bases`, mask side: roots of the mask stems carrying `_mask`. -/
def mask_bases (masks : List String) : List String :=
  (masks.filterMap (fun m => maskRoot (pyStem m))).dedup

/-- The prune pass's unpaired images: stem absent from the mask-root set. -/
def unpaired_images (images masks : List String) : List String :=
  images.filter (fun p => !(mask_bases masks).contains (pyStem p))

/-- The prune pass's unpaired masks: either the stem lacks the `_mask` suffix,
or its stripped root is absent from the image-stem set. -/
def unpaired_masks (images masks : List String) : List String :=
  masks.filter (fun m =>
    match maskRoot (pyStem m) with
    | none => true
    | some b => !(image_bases images).contains b)

/-- One run of the prune pass over the two media listings (the outputs of
`iter_media_files` on the image and mask directories): the reported candidate
lists, and the two listings after the run.  In dry-run mode nothing is
deleted; otherwise exactly the reported candidates are unlinked. -/
def prune_run (dryRun : Bool) (images masks : List String) :
    (List String × List String) × List String × List String :=
  let report := (unpaired_images images masks, unpaired_masks images masks)
  if dryRun then (report, images, masks)
  else
    (report,
      images.filter (fun p => !(unpaired_images images masks).contains p),
      masks.filter (fun m => !(unpaired_masks images masks).contains m))

lemma mem_image_bases {images : List String} {b : String} :
    b ∈ image_bases images ↔ ∃ p ∈ images, pyStem p = b := by
  simp [image_bases, List.mem_dedup, List.mem_map]

lemma mem_mask_bases {masks : List String} {b : String} :
    b ∈ mask_bases masks ↔ ∃ m ∈ masks, maskRoot (pyStem m) = some b := by
  simp [mask_bases, List.mem_dedup, List.mem_filterMap]

lemma mem_unpaired_images {images masks : List String} {p : String} :
    p ∈ unpaired_images images masks ↔ p ∈ images ∧ pyStem p ∉ mask_bases masks := by
  simp [unpaired_images, List.mem_filter]

lemma mem_surviving_images {images masks : List String} {p : String} :
    p ∈ (prune_run false images masks).2.1 ↔
      p ∈ images ∧ pyStem p ∈ mask_bases masks := by
  show p ∈ images.filter _ ↔ _
  rw [List.mem_filter]
  constructor
  · rintro ⟨hp, hpred⟩
    have hnot : p ∉ unpaired_images images masks := by simpa using hpred
    refine ⟨hp, ?_⟩
    by_contra hno
    exact hnot (mem_unpaired_images.mpr ⟨hp, hno⟩)
  · rintro ⟨hp, hb⟩
    refine ⟨hp, ?_⟩
    have hnot : p ∉ unpaired_images images masks := fun hmem =>
      (mem_unpaired_images.mp hmem).2 hb
    simpa using hnot

lemma mem_surviving_masks {images masks : List String} {m : String} :
    m ∈ (prune_run false images masks).2.2 ↔
      m ∈ masks ∧ ∃ b, maskRoot (pyStem m) = some b ∧ b ∈ image_bases images := by
  show m ∈ masks.filter _ ↔ _
  rw [List.mem_filter]
  constructor
  · rintro ⟨hm, hpred⟩
    have hnot : m ∉ unpaired_masks images masks := by simpa using hpred
    rcases hroot : maskRoot (pyStem m) with _ | b
    · exact absurd (List.mem_filter.mpr ⟨hm, by simp [hroot]⟩) hnot
    · refine ⟨hm, b, rfl, ?_⟩
      by_contra hno
      refine hnot (List.mem_filter.mpr ⟨hm, ?_⟩)
      simp only [hroot]
      simpa using hno
  · rintro ⟨hm, b, hroot, hb⟩
    refine ⟨hm, ?_⟩
    have hnot : m ∉ unpaired_masks images masks := by
      intro hmem
      rcases List.mem_filter.mp hmem with ⟨_, hpred⟩
      simp only [hroot] at hpred
      exact (by simpa using hpred : b ∉ image_bases images) hb
    simpa using hnot

/-- C2: after a non-preview prune run, the surviving image basenames and the
surviving mask root-basenames both equal the intersection of the original
image-basename set `I` with the original mask-root set `M`; in the spec's
scenario one image is unpaired and no masks are. -/
theorem prune_pairing (images masks : List String) :
    (∀ b, b ∈ image_bases ((prune_run false images masks).2.1) ↔
        b ∈ image_bases images ∧ b ∈ mask_bases masks) ∧
    (∀ b, b ∈ mask_bases ((prune_run false images masks).2.2) ↔
        b ∈ image_bases images ∧ b ∈ mask_bases masks) ∧
    (unpaired_images ["C1_100H0001.png", "C1_100H0002.png"] ["C1_100H0001_mask.png"]
        = ["C1_100H0002.png"] ∧
      unpaired_masks ["C1_100H0001.png", "C1_100H0002.png"] ["C1_100H0001_mask.png"] = [] ∧
      (prune_run false ["C1_100H0001.png", "C1_100H0002.png"] ["C1_100H0001_mask.png"]).2.1
        = ["C1_100H0001.png"]) := by
  refine ⟨?_, ?_, by decide, by decide, by decide⟩
  · intro b
    constructor
    · intro hb
      rcases mem_image_bases.mp hb with ⟨p, hp, rfl⟩
      rcases mem_surviving_images.mp hp with ⟨hpi, hpm⟩
      exact ⟨mem_image_bases.mpr ⟨p, hpi, rfl⟩, hpm⟩
    · rintro ⟨hbi, hbm⟩
      rcases mem_image_bases.mp hbi with ⟨p, hp, rfl⟩
      exact mem_image_bases.mpr ⟨p, mem_surviving_images.mpr ⟨hp, hbm⟩, rfl⟩
  · intro b
    constructor
    · intro hb
      rcases mem_mask_bases.mp hb with ⟨m, hm, hroot⟩
      rcases mem_surviving_masks.mp hm with ⟨hmm, b', hroot', hb'⟩
      rw [hroot'] at hroot
      cases hroot
      exact ⟨hb', mem_mask_bases.mpr ⟨m, hmm, hroot'⟩⟩
    · rintro ⟨hbi, hbm⟩
      rcases mem_mask_bases.mp hbm with ⟨m, hm, hroot⟩
      exact mem_mask_bases.mpr ⟨m, mem_surviving_masks.mpr ⟨hm, b, hroot, hbi⟩, hroot⟩

/-- C7: every mask file whose stem does not end with the reserved `_mask`
suffix is classified as unpaired, whatever the image basenames are. -/
theorem mask_without_suffix_unpaired (images masks : List String) (m : String)
    (hm : m ∈ masks) (h : strEndsWith (pyStem m) MASK_SUFFIX = false) :
    m ∈ unpaired_masks images masks := by
  refine List.mem_filter.mpr ⟨hm, ?_⟩
  simp [maskRoot, h]

/-- Witness for C7: the suffix-less mask `C1_100H0001.png` is unpaired even
though its stem equals the image basename `C1_100H0001`. -/
theorem mask_without_suffix_unpaired_witness :
    "C1_100H0001.png" ∈ unpaired_masks ["C1_100H0001.jpg"] ["C1_100H0001.png"] :=
  mask_without_suffix_unpaired ["C1_100H0001.jpg"] ["C1_100H0001.png"] "C1_100H0001.png"
    (by decide) (by decide)

/-- C9: the preview run reports exactly the candidate sets a destructive run
deletes, and leaves both listings untouched: a file is gone after the real run
precisely when the preview reported it. -/
theorem prune_preview (images masks : List String) :
    (prune_run true images masks).1 = (prune_run false images masks).1 ∧
    (prune_run true images masks).2 = (images, masks) ∧
    (∀ p, p ∈ images →
      (p ∉ (prune_run false images masks).2.1 ↔ p ∈ (prune_run true images masks).1.1)) ∧
    (∀ m, m ∈ masks →
      (m ∉ (prune_run false images masks).2.2 ↔ m ∈ (prune_run true images masks).1.2)) := by
  refine ⟨rfl, rfl, ?_, ?_⟩
  · intro p hp
    show ¬ p ∈ images.filter _ ↔ p ∈ unpaired_images images masks
    rw [List.mem_filter]
    simp [hp, not_not]
  · intro m hm
    show ¬ m ∈ masks.filter _ ↔ m ∈ unpaired_masks images masks
    rw [List.mem_filter]
    simp [hm, not_not]

/-- Witness for C9: the preview of the spec scenario flags exactly the image
deleted by the real run. -/
theorem prune_preview_witness :
    "C1_100H0002.png" ∈
      (prune_run true ["C1_100H0001.png", "C1_100H0002.png"] ["C1_100H0001_mask.png"]).1.1 :=
  ((prune_preview ["C1_100H0001.png", "C1_100H0002.png"] ["C1_100H0001_mask.png"]).2.2.1
    "C1_100H0002.png" (by decide)).mp (by decide)

/-! ### Merge pass (`gather_images_and_masks.py`) -/

/-- The merge script re-declares its own allow-list, and it lacks `.webp`. -/
def IMG_EXTS_GATHER : List String := [".jpg", ".jpeg", ".png", ".bmp", ".tif", ".tiff"]

/-- Media recognition in `process_split`: extension check only, no
hidden-file exclusion. -/
def gather_media_files (files : List String) : List String :=
  files.filter (fun p => IMG_EXTS_GATHER.contains (strLower (pySuffix p)))

/-- Media recognition in `fix_masks_to_binary.main`: the 7-extension list,
again with no hidden-file exclusion. -/
def binarizer_media_files (files : List String) : List String :=
  files.filter (fun p => IMG_EXTS.contains (strLower (pySuffix p)))

/-- `resize_dataset_256.is_image_file`: extension allow-list plus leading-dot
exclusion. -/
def is_image_file (p : String) : Bool :=
  IMG_EXTS.contains (strLower (pySuffix p)) && !(strStartsWith p ".")

/-- Modelled from the spec: the claimed uniform recognition rule — extension
(case-insensitively) in the 7-entry allow-list and no leading dot, for every
stage alike. -/
def spec_recognized (p : String) : Bool :=
  IMG_EXTS.contains (strLower (pySuffix p)) && !(strStartsWith p ".")

/-- C5 counterexample: recognition is not uniform across the stages.  The
merge pass rejects `a.webp`, which the claimed rule accepts, and the
binarizer accepts the hidden file `.hidden.png`, which the claimed rule
excludes. -/
theorem media_recognition_not_uniform :
    spec_recognized "a.webp" = true ∧ gather_media_files ["a.webp"] = [] ∧
    spec_recognized ".hidden.png" = false ∧
    binarizer_media_files [".hidden.png"] = [".hidden.png"] := by decide

/-- C5 amended: the prune pass and the resampler recognize a file exactly by
the 7-extension allow-list plus the leading-dot exclusion; the binarizer
checks only the 7-extension list (hidden files are not excluded); the merge
pass checks only a 6-extension list without `.webp`. -/
theorem media_recognition_per_stage (files : List String) (p : String) :
    (p ∈ iter_media_files files ↔ p ∈ files ∧ spec_recognized p = true) ∧
    (is_image_file p = spec_recognized p) ∧
    (p ∈ binarizer_media_files files ↔
      p ∈ files ∧ IMG_EXTS.contains (strLower (pySuffix p)) = true) ∧
    (p ∈ gather_media_files files ↔
      p ∈ files ∧ IMG_EXTS_GATHER.contains (strLower (pySuffix p)) = true) := by
  refine ⟨?_, rfl, ?_, ?_⟩ <;>
    simp [iter_media_files, binarizer_media_files, gather_media_files, spec_recognized,
      List.mem_filter]

/-- The relaxed scan of `choose_mask_for`: files with an allowed extension
whose lowercased stem starts with the lowercased basename and contains the
`_mask` marker. -/
def relaxed_candidates (basename : String) (maskFiles : List String) : List String :=
  maskFiles.filter (fun p =>
    IMG_EXTS_GATHER.contains (strLower (pySuffix p)) &&
    (strStartsWith (strLower (pyStem p)) (strLower basename) &&
      strContainsSub (strLower (pyStem p)) MASK_SUFFIX))

/-- `choose_mask_for`: an exact `<basename>_mask.<ext>` hit wins; otherwise
the relaxed scan succeeds only when it finds exactly one candidate. -/
def choose_mask_for (basename : String) (maskFiles : List String) : Option String :=
  match IMG_EXTS_GATHER.find?
      (fun ext => maskFiles.contains (basename ++ MASK_SUFFIX ++ ext)) with
  | some ext => some (basename ++ MASK_SUFFIX ++ ext)
  | none =>
    match relaxed_candidates basename maskFiles with
    | [c] => some c
    | _ => none

/-- C4: the mask for an image basename is resolved in priority order — an
exact `basename + "_mask" + ext` hit for an allowed extension wins; with no
exact hit, a unique relaxed candidate is returned; with no exact hit and two
or more relaxed candidates the result is `none`, never an arbitrary pick. -/
theorem choose_mask_priority (basename : String) (maskFiles : List String) :
    ((∃ ext ∈ IMG_EXTS_GATHER, (basename ++ MASK_SUFFIX ++ ext) ∈ maskFiles) →
      ∃ ext ∈ IMG_EXTS_GATHER,
        choose_mask_for basename maskFiles = some (basename ++ MASK_SUFFIX ++ ext)) ∧
    ((∀ ext ∈ IMG_EXTS_GATHER, (basename ++ MASK_SUFFIX ++ ext) ∉ maskFiles) →
      ∀ c, relaxed_candidates basename maskFiles = [c] →
        choose_mask_for basename maskFiles = some c) ∧
    ((∀ ext ∈ IMG_EXTS_GATHER, (basename ++ MASK_SUFFIX ++ ext) ∉ maskFiles) →
      2 ≤ (relaxed_candidates basename maskFiles).length →
      choose_mask_for basename maskFiles = none) := by
  have hnone : (∀ ext ∈ IMG_EXTS_GATHER, (basename ++ MASK_SUFFIX ++ ext) ∉ maskFiles) →
      IMG_EXTS_GATHER.find?
        (fun ext => maskFiles.contains (basename ++ MASK_SUFFIX ++ ext)) = none := by
    intro h
    rw [List.find?_eq_none]
    intro x hx
    simpa using h x hx
  refine ⟨?_, ?_, ?_⟩
  · rintro ⟨ext, hext, hmem⟩
    rcases hfind : IMG_EXTS_GATHER.find?
        (fun e => maskFiles.contains (basename ++ MASK_SUFFIX ++ e)) with _ | e
    · exfalso
      rw [List.find?_eq_none] at hfind
      have := hfind ext hext
      simp at this
      exact this hmem
    · refine ⟨e, List.mem_of_find?_eq_some hfind, ?_⟩
      unfold choose_mask_for
      rw [hfind]
  · intro h c hc
    unfold choose_mask_for
    rw [hnone h, hc]
  · intro h hlen
    rcases hc : relaxed_candidates basename maskFiles with _ | ⟨a, _ | ⟨b, t⟩⟩
    · unfold choose_mask_for
      rw [hnone h, hc]
    · rw [hc] at hlen
      simp at hlen
    · unfold choose_mask_for
      rw [hnone h, hc]

/-- Witness for C4: two relaxed candidates and no exact match leave the
basename unresolved. -/
theorem choose_mask_priority_witness :
    choose_mask_for "x" ["x1_mask.png", "x2_mask.png"] = none :=
  (choose_mask_priority "x" ["x1_mask.png", "x2_mask.png"]).2.2 (by decide) (by decide)

/-- `find_dir_exact_or_fallback`: the exact subdirectory name wins; otherwise
the first directory, in listing order, whose lowercased name starts with the
lowercased prefix. -/
def find_dir_exact_or_fallback (dirs : List String) (exact pre : String) : Option String :=
  if exact ∈ dirs then some exact
  else dirs.find? (fun d => strStartsWith (strLower d) (strLower pre))

/-- Longest common prefix length of two character lists. -/
def commonPrefixLen : List Char → List Char → ℕ
  | a :: as, b :: bs => if a = b then commonPrefixLen as bs + 1 else 0
  | _, _ => 0

/-- Modelled from the spec: the subfolder is located by exact name match
first, falling back to a longest-common-prefix scan — the directory whose
name shares the longest common prefix with the expected exact name. -/
def find_dir_spec (dirs : List String) (exact : String) : Option String :=
  if exact ∈ dirs then some exact
  else dirs.argmax (fun d => commonPrefixLen d.toList exact.toList)

/-- `split("data_")[-1]`: the characters after the last occurrence of the
separator, or the whole string when the separator never occurs. -/
def afterLastSep (sep : List Char) : List Char → Option (List Char)
  | [] => none
  | c :: cs =>
    match afterLastSep sep cs with
    | some r => some r
    | none => if sep.isPrefixOf (c :: cs) then some ((c :: cs).drop sep.length) else none

/-- The split tag of a split directory name, e.g. `data_C1 → C1`. -/
def split_tag (name : String) : String :=
  match afterLastSep "data_".toList name.toList with
  | some r => String.mk r
  | none => name

/-- The listing of a named subdirectory of a split (a split is modelled as an
association list from subdirectory name to its file listing). -/
def listingOf (subdirs : List (String × List String)) (d : String) : List String :=
  match subdirs.find? (fun e => e.1 == d) with
  | some e => e.2
  | none => []

/-- `process_split`, reduced to its observables: the summary
`(images copied, masks copied, images without mask, extra masks)`.  A split
whose images or masks subfolder cannot be located is skipped with the zeroed
summary. -/
def process_split (splitName : String) (subdirs : List (String × List String)) :
    ℕ × ℕ × List String × List String :=
  let tag := split_tag splitName
  let dirNames := subdirs.map Prod.fst
  match find_dir_exact_or_fallback dirNames ("images_" ++ tag) "images_",
      find_dir_exact_or_fallback dirNames ("masks_" ++ tag) "masks_" with
  | some idir, some mdir =>
    let images := gather_media_files (listingOf subdirs idir)
    let masks := gather_media_files (listingOf subdirs mdir)
    let chosen := images.map (fun img => (pyStem img, choose_mask_for (pyStem img) masks))
    let matched := chosen.filterMap (fun r => r.2.map (fun m => strLower (pyStem m)))
    (images.length,
      (chosen.filter (fun r => r.2.isSome)).length,
      chosen.filterMap (fun r => if r.2.isSome then none else some (tag ++ ":" ++ r.1)),
      (masks.filter (fun m =>
        strContainsSub (strLower (pyStem m)) MASK_SUFFIX &&
        !(matched.contains (strLower (pyStem m))))).map (fun m => tag ++ ":" ++ pyStem m))
  | _, _ => (0, 0, [], [])

/-- C6 counterexample: with subdirectories `[images_zz, images_C2]` and the
expected exact name `images_C1` absent, the source picks the first
fixed-prefix match `images_zz`, while a longest-common-prefix scan picks
`images_C2`. -/
theorem split_dir_fallback_cex :
    find_dir_exact_or_fallback ["images_zz", "images_C2"] "images_C1" "images_" =
      some "images_zz" ∧
    find_dir_spec ["images_zz", "images_C2"] "images_C1" = some "images_C2" ∧
    ("images_zz" : String) ≠ "images_C2" := by decide

lemma find?_eq_first {α : Type} (p : α → Bool) (l₁ : List α) (d : α) (l₂ : List α)
    (h₁ : ∀ x ∈ l₁, p x = false) (hd : p d = true) :
    (l₁ ++ d :: l₂).find? p = some d := by
  induction l₁ with
  | nil =>
    exact List.find?_cons_of_pos l₂ hd
  | cons a l ih =>
    have ha : p a = false := h₁ a (List.mem_cons_self a l)
    rw [List.cons_append, List.find?_cons_of_neg (l ++ d :: l₂) (by simp [ha])]
    exact ih (fun x hx => h₁ x (List.mem_cons_of_mem a hx))

/-- C6 amended: the subfolders are located by exact name match first, falling
back to the first directory in listing order whose lowercased name starts
with the role prefix (so a match is returned whenever one exists, and it is
the first one); a split where either lookup fails is skipped entirely,
yielding the zeroed summary instead of aborting. -/
theorem split_dir_resolution (dirs : List String) (exact pre : String)
    (splitName : String) (subdirs : List (String × List String)) :
    (exact ∈ dirs → find_dir_exact_or_fallback dirs exact pre = some exact) ∧
    (exact ∉ dirs → ∀ d, find_dir_exact_or_fallback dirs exact pre = some d →
      d ∈ dirs ∧ strStartsWith (strLower d) (strLower pre) = true) ∧
    (exact ∉ dirs → ∀ l₁ d l₂, dirs = l₁ ++ d :: l₂ →
      (∀ d' ∈ l₁, strStartsWith (strLower d') (strLower pre) = false) →
      strStartsWith (strLower d) (strLower pre) = true →
      find_dir_exact_or_fallback dirs exact pre = some d) ∧
    (exact ∉ dirs → (∃ d ∈ dirs, strStartsWith (strLower d) (strLower pre) = true) →
      ∃ d' ∈ dirs, find_dir_exact_or_fallback dirs exact pre = some d') ∧
    (exact ∉ dirs → (∀ d ∈ dirs, strStartsWith (strLower d) (strLower pre) = false) →
      find_dir_exact_or_fallback dirs exact pre = none) ∧
    ((find_dir_exact_or_fallback (subdirs.map Prod.fst)
          ("images_" ++ split_tag splitName) "images_" = none ∨
      find_dir_exact_or_fallback (subdirs.map Prod.fst)
          ("masks_" ++ split_tag splitName) "masks_" = none) →
      process_split splitName subdirs = (0, 0, [], [])) := by
  refine ⟨?_, ?_, ?_, ?_, ?_, ?_⟩
  · intro h
    simp [find_dir_exact_or_fallback, h]
  · intro h d hd
    unfold find_dir_exact_or_fallback at hd
    rw [if_neg h] at hd
    have h2 := List.find?_some hd
    exact ⟨List.mem_of_find?_eq_some hd, by simpa using h2⟩
  · intro h l₁ d l₂ hsplit hnone hd
    subst hsplit
    unfold find_dir_exact_or_fallback
    rw [if_neg h]
    exact find?_eq_first _ l₁ d l₂ hnone hd
  · intro h hex
    have hsome : ((dirs.find? (fun d => strStartsWith (strLower d) (strLower pre))).isSome)
        = true := List.find?_isSome.mpr hex
    rcases hfind : dirs.find? (fun d => strStartsWith (strLower d) (strLower pre))
        with _ | d
    · rw [hfind] at hsome
      simp at hsome
    · refine ⟨d, List.mem_of_find?_eq_some hfind, ?_⟩
      unfold find_dir_exact_or_fallback
      rw [if_neg h]
      exact hfind
  · intro h hall
    unfold find_dir_exact_or_fallback
    rw [if_neg h, List.find?_eq_none]
    intro d hdm
    simp [hall d hdm]
  · intro h
    rcases h with h | h
    · rcases h2 : find_dir_exact_or_fallback (subdirs.map Prod.fst)
          ("masks_" ++ split_tag splitName) "masks_" with _ | d
      · simp only [process_split]
        rw [h, h2]
      · simp only [process_split]
        rw [h, h2]
    · rcases h1 : find_dir_exact_or_fallback (subdirs.map Prod.fst)
          ("images_" ++ split_tag splitName) "images_" with _ | d
      · simp only [process_split]
        rw [h1, h]
      · simp only [process_split]
        rw [h1, h]

/-- Witness for C6: with the exact name absent, the fallback skips the
non-matching `annotations` entry and returns the first prefix match
`images_zz`, not the later `images_C2`; and a split with no matching
subfolder is skipped with the zeroed summary. -/
theorem split_dir_resolution_witness :
    find_dir_exact_or_fallback ["annotations", "images_zz", "images_C2"]
        "images_C1" "images_" = some "images_zz" ∧
    process_split "data_C1" [("annotations", ["a.png"])] = (0, 0, [], []) :=
  ⟨(split_dir_resolution ["annotations", "images_zz", "images_C2"] "images_C1" "images_"
        "data_C1" []).2.2.1 (by decide)
      ["annotations"] "images_zz" ["images_C2"] (by decide) (by decide) (by decide),
    (split_dir_resolution [] "x" "y" "data_C1" [("annotations", ["a.png"])]).2.2.2.2.2
      (Or.inl (by decide))⟩

/-! ### Resampler (`resize_dataset_256.py`)

The geometry of `resize_keep_aspect` is embedded over exact rationals, with
Python's `round` (ties to even) made explicit.  The PIL resampling kernel is
an abstract parameter producing the content samples, since the claims only
concern dimensions, placement and padding. -/

/-- Python's `round` on an exact rational: nearest integer, ties to even. -/
def pyRound (q : ℚ) : ℤ :=
  if Int.fract q < 1/2 then ⌊q⌋
  else if 1/2 < Int.fract q then ⌊q⌋ + 1
  else if ⌊q⌋ % 2 = 0 then ⌊q⌋ else ⌊q⌋ + 1

/-- `scale = min(target_w / w, target_h / h)`. -/
def kaScale (w h W H : ℕ) : ℚ := min ((W : ℚ) / w) ((H : ℚ) / h)

/-- `new_w = max(1, int(round(w * scale)))`. -/
def kaNewW (w h W H : ℕ) : ℕ := max 1 (pyRound (w * kaScale w h W H)).toNat

/-- `new_h = max(1, int(round(h * scale)))`. -/
def kaNewH (w h W H : ℕ) : ℕ := max 1 (pyRound (h * kaScale w h W H)).toNat

/-- `left = (target_w - new_w) // 2`, Python floor division on ints. -/
def kaLeft (W new_w : ℕ) : ℤ := ((W : ℤ) - new_w).fdiv 2

/-- `top = (target_h - new_h) // 2`. -/
def kaTop (H new_h : ℕ) : ℤ := ((H : ℤ) - new_h).fdiv 2

/-- A pixel buffer: dimensions plus the sample at each coordinate. -/
structure Img where
  width : ℕ
  height : ℕ
  pix : ℕ → ℕ → ℕ

/-- `resize_keep_aspect` with the PIL kernel abstracted: the canvas measures
exactly `(W, H)`, is filled with the background 0, and receives the resampled
`new_w × new_h` content at the centered offsets. -/
def resize_keep_aspect (kernel : Img → ℕ × ℕ → ℕ → ℕ → ℕ) (im : Img) (W H : ℕ) : Img :=
  let new_w := kaNewW im.width im.height W H
  let new_h := kaNewH im.width im.height W H
  let left := (kaLeft W new_w).toNat
  let top := (kaTop H new_h).toNat
  { width := W, height := H,
    pix := fun x y =>
      if left ≤ x ∧ x < left + new_w ∧ top ≤ y ∧ y < top + new_h then
        kernel im (new_w, new_h) (x - left) (y - top)
      else 0 }

lemma resize_pix (kernel : Img → ℕ × ℕ → ℕ → ℕ → ℕ) (im : Img) (W H x y : ℕ) :
    (resize_keep_aspect kernel im W H).pix x y =
      if (kaLeft W (kaNewW im.width im.height W H)).toNat ≤ x ∧
          x < (kaLeft W (kaNewW im.width im.height W H)).toNat
              + kaNewW im.width im.height W H ∧
          (kaTop H (kaNewH im.width im.height W H)).toNat ≤ y ∧
          y < (kaTop H (kaNewH im.width im.height W H)).toNat
              + kaNewH im.width im.height W H then
        kernel im (kaNewW im.width im.height W H, kaNewH im.width im.height W H)
          (x - (kaLeft W (kaNewW im.width im.height W H)).toNat)
          (y - (kaTop H (kaNewH im.width im.height W H)).toNat)
      else 0 := rfl

lemma pyRound_le {q : ℚ} {n : ℤ} (h : q ≤ n) : pyRound q ≤ n := by
  have hfl : ⌊q⌋ ≤ n := by
    have h2 : ⌊q⌋ ≤ ⌊((n : ℚ))⌋ := Int.floor_le_floor h
    simpa using h2
  have hbump : ¬ Int.fract q < 1/2 → ⌊q⌋ + 1 ≤ n := by
    intro h1
    by_contra hcon
    have hn : ⌊q⌋ = n := by omega
    have hfr : Int.fract q = q - ((n : ℚ)) := by
      have hdef : Int.fract q = q - ((⌊q⌋ : ℚ)) := rfl
      rw [hdef, hn]
    have h0 : Int.fract q ≤ 0 := by
      rw [hfr]
      linarith [h]
    have h12 : (1/2 : ℚ) ≤ Int.fract q := not_lt.mp h1
    linarith
  unfold pyRound
  split_ifs with h1 h2 h3
  · exact hfl
  · exact hbump h1
  · exact hfl
  · exact hbump h1

lemma pyRound_intCast (n : ℤ) : pyRound ((n : ℚ)) = n := by
  unfold pyRound
  rw [Int.fract_intCast, if_pos (by norm_num)]
  exact Int.floor_intCast n

lemma mul_scale_le_W {w h W H : ℕ} (hw : 0 < w) :
    (w : ℚ) * kaScale w h W H ≤ (W : ℚ) := by
  unfold kaScale
  have h1 : min ((W : ℚ) / w) ((H : ℚ) / h) ≤ (W : ℚ) / w := min_le_left _ _
  calc (w : ℚ) * min ((W : ℚ) / w) ((H : ℚ) / h)
      ≤ (w : ℚ) * ((W : ℚ) / w) := mul_le_mul_of_nonneg_left h1 (by positivity)
    _ = W := by field_simp

lemma mul_scale_le_H {w h W H : ℕ} (hh : 0 < h) :
    (h : ℚ) * kaScale w h W H ≤ (H : ℚ) := by
  unfold kaScale
  have h1 : min ((W : ℚ) / w) ((H : ℚ) / h) ≤ (H : ℚ) / h := min_le_right _ _
  calc (h : ℚ) * min ((W : ℚ) / w) ((H : ℚ) / h)
      ≤ (h : ℚ) * ((H : ℚ) / h) := mul_le_mul_of_nonneg_left h1 (by positivity)
    _ = H := by field_simp

lemma kaNewW_le {w h W H : ℕ} (hw : 0 < w) (hW : 1 ≤ W) : kaNewW w h W H ≤ W := by
  unfold kaNewW
  have hle : pyRound ((w : ℚ) * kaScale w h W H) ≤ (W : ℤ) := by
    apply pyRound_le
    exact_mod_cast mul_scale_le_W hw
  apply max_le hW
  rw [Int.toNat_le]
  exact_mod_cast hle

lemma kaNewH_le {w h W H : ℕ} (hh : 0 < h) (hH : 1 ≤ H) : kaNewH w h W H ≤ H := by
  unfold kaNewH
  have hle : pyRound ((h : ℚ) * kaScale w h W H) ≤ (H : ℤ) := by
    apply pyRound_le
    exact_mod_cast mul_scale_le_H hh
  apply max_le hH
  rw [Int.toNat_le]
  exact_mod_cast hle

lemma kaLeft_eq {W n : ℕ} (h : n ≤ W) : kaLeft W n = (((W - n) / 2 : ℕ) : ℤ) := by
  unfold kaLeft
  have hcast : (W : ℤ) - n = ((W - n : ℕ) : ℤ) := by omega
  rw [hcast, Int.fdiv_eq_tdiv (by omega) (by omega)]
  exact (Int.ofNat_tdiv _ 2).symm

lemma kaLeft_toNat {W n : ℕ} (h : n ≤ W) : (kaLeft W n).toNat = (W - n) / 2 := by
  rw [kaLeft_eq h, Int.toNat_natCast]

lemma kaTop_eq {H n : ℕ} (h : n ≤ H) : kaTop H n = (((H - n) / 2 : ℕ) : ℤ) :=
  kaLeft_eq h

lemma kaTop_toNat {H n : ℕ} (h : n ≤ H) : (kaTop H n).toNat = (H - n) / 2 :=
  kaLeft_toNat h

/-- C10: for positive input dimensions and a positive target, the computed
content dimensions never exceed the target, both centering offsets are
non-negative (Python's floor division equals natural division here), and the
content region lies entirely within the canvas. -/
theorem resize_content_inbounds (w h W H : ℕ)
    (hw : 0 < w) (hh : 0 < h) (hW : 1 ≤ W) (hH : 1 ≤ H) :
    kaNewW w h W H ≤ W ∧ kaNewH w h W H ≤ H ∧
    kaLeft W (kaNewW w h W H) = (((W - kaNewW w h W H) / 2 : ℕ) : ℤ) ∧
    kaTop H (kaNewH w h W H) = (((H - kaNewH w h W H) / 2 : ℕ) : ℤ) ∧
    0 ≤ kaLeft W (kaNewW w h W H) ∧ 0 ≤ kaTop H (kaNewH w h W H) ∧
    (kaLeft W (kaNewW w h W H)).toNat + kaNewW w h W H ≤ W ∧
    (kaTop H (kaNewH w h W H)).toNat + kaNewH w h W H ≤ H := by
  have h1 : kaNewW w h W H ≤ W := kaNewW_le hw hW
  have h2 : kaNewH w h W H ≤ H := kaNewH_le hh hH
  refine ⟨h1, h2, kaLeft_eq h1, kaTop_eq h2, ?_, ?_, ?_, ?_⟩
  · rw [kaLeft_eq h1]
    exact Int.natCast_nonneg _
  · rw [kaTop_eq h2]
    exact Int.natCast_nonneg _
  · rw [kaLeft_toNat h1]
    omega
  · rw [kaTop_toNat h2]
    omega

/-- Witness for C10 at the spec scenario, 512×384 content into a 256×256
canvas. -/
theorem resize_content_inbounds_witness :
    kaNewW 512 384 256 256 ≤ 256 ∧
    0 ≤ kaLeft 256 (kaNewW 512 384 256 256) :=
  ⟨(resize_content_inbounds 512 384 256 256 (by decide) (by decide) (by decide)
      (by decide)).1,
    (resize_content_inbounds 512 384 256 256 (by decide) (by decide) (by decide)
      (by decide)).2.2.2.2.1⟩

/-- C3: aspect-preserving resize yields a canvas of exactly the target
dimensions; the content region measures `round(w*scale) × round(h*scale)`
(each floored to a minimum of 1) and sits at the centered offsets; every
pixel outside that region is the background 0, and the pixels inside carry
the resampled content; at 512×384 into 256×256 the content is 256×192 with a
32-pixel top offset. -/
theorem resize_keep_aspect_spec (kernel : Img → ℕ × ℕ → ℕ → ℕ → ℕ) (im : Img) (W H : ℕ)
    (hw : 0 < im.width) (hh : 0 < im.height) (hW : 1 ≤ W) (hH : 1 ≤ H) :
    (resize_keep_aspect kernel im W H).width = W ∧
    (resize_keep_aspect kernel im W H).height = H ∧
    (∀ x y,
      ¬((W - kaNewW im.width im.height W H) / 2 ≤ x ∧
        x < (W - kaNewW im.width im.height W H) / 2 + kaNewW im.width im.height W H ∧
        (H - kaNewH im.width im.height W H) / 2 ≤ y ∧
        y < (H - kaNewH im.width im.height W H) / 2 + kaNewH im.width im.height W H) →
      (resize_keep_aspect kernel im W H).pix x y = 0) ∧
    (∀ x y, x < kaNewW im.width im.height W H → y < kaNewH im.width im.height W H →
      (resize_keep_aspect kernel im W H).pix
          ((W - kaNewW im.width im.height W H) / 2 + x)
          ((H - kaNewH im.width im.height W H) / 2 + y)
        = kernel im (kaNewW im.width im.height W H, kaNewH im.width im.height W H) x y) ∧
    (kaNewW 512 384 256 256 = 256 ∧ kaNewH 512 384 256 256 = 192 ∧
      (kaLeft 256 256).toNat = 0 ∧ (kaTop 256 192).toNat = 32) := by
  have h1 : kaNewW im.width im.height W H ≤ W := kaNewW_le hw hW
  have h2 : kaNewH im.width im.height W H ≤ H := kaNewH_le hh hH
  have hL := kaLeft_toNat h1
  have hT := kaTop_toNat h2
  have hsc : kaScale 512 384 256 256 = 1/2 := by
    unfold kaScale
    norm_num
  have hnw : kaNewW 512 384 256 256 = 256 := by
    unfold kaNewW
    rw [hsc]
    have hc : ((512 : ℕ) : ℚ) * (1/2) = ((256 : ℤ) : ℚ) := by norm_num
    rw [hc, pyRound_intCast]
    decide
  have hnh : kaNewH 512 384 256 256 = 192 := by
    unfold kaNewH
    rw [hsc]
    have hc : ((384 : ℕ) : ℚ) * (1/2) = ((192 : ℤ) : ℚ) := by norm_num
    rw [hc, pyRound_intCast]
    decide
  refine ⟨rfl, rfl, ?_, ?_, hnw, hnh, by decide, by decide⟩
  · intro x y hxy
    rw [resize_pix, hL, hT, if_neg hxy]
  · intro x y hx hy
    rw [resize_pix, hL, hT, if_pos (by omega)]
    rw [Nat.add_sub_cancel_left, Nat.add_sub_cancel_left]

/-- Witness for C3 at the 512×384 → 256×256 scenario with a constant
kernel. -/
theorem resize_keep_aspect_spec_witness :
    (resize_keep_aspect (fun _ _ _ _ => 0) (Img.mk 512 384 (fun _ _ => 0)) 256 256).width
      = 256 ∧
    (resize_keep_aspect (fun _ _ _ _ => 0) (Img.mk 512 384 (fun _ _ => 0)) 256 256).height
      = 256 :=
  ⟨(resize_keep_aspect_spec (fun _ _ _ _ => 0) (Img.mk 512 384 (fun _ _ => 0)) 256 256
      (by decide) (by decide) (by decide) (by decide)).1,
    (resize_keep_aspect_spec (fun _ _ _ _ => 0) (Img.mk 512 384 (fun _ _ => 0)) 256 256
      (by decide) (by decide) (by decide) (by decide)).2.1⟩

end SSHelper


